import Mathlib

/-!
# Verification of the Illarion server simulation core

Shallow embedding of the scheduler, command-queue, and action-point (AP)
machinery of the Illarion game server, together with proofs of the
specification's testable properties.

The repository ships only header files; method bodies that live in the
missing `.cpp`/`.tcc` translation units are modelled from the specification
and the headers' documentation comments, and are marked as such.  Inline
code that is present in the headers (`Task::operator<`,
`thread_safe_vector::size`, `BasicClientCommand::getMinAP`) is embedded
directly from the source.
-/

namespace Illarion

/-! ## WorldClock / AP conversion (World::turntheworld, AP step) -/

/-- Modelled from the spec: the elapsed-ms-to-AP conversion step of
`World::turntheworld` (implementation not under src/).  Given the
milliseconds-per-AP rate, the carried remainder and the newly elapsed
milliseconds, emits `floor((elapsed + remainder) / msPerAP)` AP and keeps
the unconsumed fraction as the new remainder. -/
def apStep (msPerAP rem elapsed : Nat) : Nat × Nat :=
  ((elapsed + rem) / msPerAP, (elapsed + rem) % msPerAP)

/-- Feeding a whole sequence of elapsed-time samples to the AP converter,
starting from remainder 0, accumulating the AP emitted by each call.
Returns (total AP emitted, final remainder). -/
def apRun (msPerAP : Nat) : List Nat → Nat × Nat
  | [] => (0, 0)
  | e :: rest =>
      let s := apStep msPerAP 0 e
      apRunFrom msPerAP s.1 s.2 rest
where
  /-- Continue the run with `acc` AP already emitted and remainder `rem`. -/
  apRunFrom (msPerAP acc rem : Nat) : List Nat → Nat × Nat
    | [] => (acc, rem)
    | e :: rest =>
        let s := apStep msPerAP rem e
        apRunFrom msPerAP (acc + s.1) s.2 rest

/-- Conservation invariant for the continuation form: emitted AP times the
rate plus the remainder accounts exactly for all milliseconds seen. -/
theorem apRunFrom_conserve (m acc rem : Nat) (l : List Nat) :
    (apRun.apRunFrom m acc rem l).1 * m + (apRun.apRunFrom m acc rem l).2 =
      acc * m + rem + l.sum := by
  induction l generalizing acc rem with
  | nil => simp [apRun.apRunFrom]
  | cons e rest ih =>
      simp only [apRun.apRunFrom, apStep, List.sum_cons]
      rw [ih, Nat.add_mul]
      have h := Nat.div_add_mod (e + rem) m
      rw [Nat.mul_comm] at h
      omega

/-- The final remainder of the continuation form is below the rate. -/
theorem apRunFrom_rem_lt (m acc rem : Nat) (hm : 0 < m) (hr : rem < m)
    (l : List Nat) : (apRun.apRunFrom m acc rem l).2 < m := by
  induction l generalizing acc rem with
  | nil => simpa [apRun.apRunFrom]
  | cons e rest ih =>
      simp only [apRun.apRunFrom, apStep]
      exact ih _ _ (Nat.mod_lt _ hm)

theorem apRun_conserve (m : Nat) (l : List Nat) :
    (apRun m l).1 * m + (apRun m l).2 = l.sum := by
  cases l with
  | nil => simp [apRun]
  | cons e rest =>
      simp only [apRun, apStep]
      have h := apRunFrom_conserve m ((e + 0) / m) ((e + 0) % m) rest
      have h2 := Nat.div_add_mod (e + 0) m
      rw [Nat.mul_comm] at h2
      simp only [List.sum_cons]
      omega

theorem apRun_rem_lt (m : Nat) (hm : 0 < m) (l : List Nat) :
    (apRun m l).2 < m := by
  cases l with
  | nil => simpa [apRun]
  | cons e rest =>
      simp only [apRun, apStep]
      exact apRunFrom_rem_lt m _ _ hm (Nat.mod_lt _ hm) rest

/-- **C1.** AP conversion is conservative under any partitioning of elapsed
time: for every positive rate `msPerAP` and every sequence of elapsed-time
samples, the total AP emitted across all converter calls equals
`floor(total_elapsed_ms / msPerAP)`, the final carried remainder equals
`total_elapsed_ms % msPerAP`, and emitted AP times the rate plus the
remainder restores the total elapsed time exactly — no AP unit is created,
lost, or double-counted however irregularly the converter is invoked. -/
theorem ap_conversion_conservative (m : Nat) (hm : 0 < m) (samples : List Nat) :
    (apRun m samples).1 = samples.sum / m ∧
    (apRun m samples).2 = samples.sum % m ∧
    (apRun m samples).1 * m + (apRun m samples).2 = samples.sum := by
  have hc := apRun_conserve m samples
  have hr := apRun_rem_lt m hm samples
  have h1 : samples.sum = m * (apRun m samples).1 + (apRun m samples).2 := by
    rw [Nat.mul_comm]
    omega
  refine ⟨?_, ?_, hc⟩
  · rw [h1, Nat.mul_add_div hm, Nat.div_eq_of_lt hr, Nat.add_zero]
  · rw [h1, Nat.mul_add_mod, Nat.mod_eq_of_lt hr]

/-- Witness for C1, realising the spec's own scenario: `msPerAP = 10`,
samples 3 ms, 4 ms, 5 ms give 1 AP total with remainder 2 ms. -/
theorem ap_conversion_conservative_witness :
    (apRun 10 [3, 4, 5]).1 = [3, 4, 5].sum / 10 ∧
    (apRun 10 [3, 4, 5]).2 = [3, 4, 5].sum % 10 ∧
    (apRun 10 [3, 4, 5]).1 * 10 + (apRun 10 [3, 4, 5]).2 = [3, 4, 5].sum :=
  ap_conversion_conservative 10 (by decide) [3, 4, 5]

/-! ## thread_safe_vector (thread_safe_vector.hpp) -/

/-- Embedded from `thread_safe_vector.hpp`: `size()` reads the underlying
`std::list` length into a `uint16_t` local (`uint16_t s = std::list<T>::size();`)
before returning it as `size_t`, so the count is reduced modulo `2^16`. -/
def threadSafeVectorSize {T : Type} (l : List T) : Nat :=
  l.length % 65536

/-- **C9.** `thread_safe_vector<T>::size()` truncates the element count to
16 bits: for every list state it returns the length modulo `2^16`, so any
list holding 65536 or more elements reports a size different from its true
element count. -/
theorem thread_safe_vector_size_truncates :
    ∀ (l : List Nat), threadSafeVectorSize l = l.length % 2 ^ 16 ∧
      (65536 ≤ l.length → threadSafeVectorSize l ≠ l.length) := by
  intro l
  constructor
  · rfl
  · intro h
    unfold threadSafeVectorSize
    have : l.length % 65536 < 65536 := Nat.mod_lt _ (by norm_num)
    omega

/-- Witness for C9 at a list of 65536 elements: the reported size is 0,
not 65536. -/
theorem thread_safe_vector_size_truncates_witness :
    threadSafeVectorSize (List.replicate 65536 0) = (List.replicate 65536 (0 : Nat)).length % 2 ^ 16 ∧
    (65536 ≤ (List.replicate 65536 (0 : Nat)).length →
      threadSafeVectorSize (List.replicate 65536 0) ≠ (List.replicate 65536 (0 : Nat)).length) :=
  thread_safe_vector_size_truncates (List.replicate 65536 0)

/-! ## Character action points (Character.hpp) -/

/-- State of a character's action-point accounting: the `actionPoints`
member of `Character` together with the (subclass-dependent) maximum
returned by `getMaxActionPoints()`. -/
structure CharacterAP where
  actionPoints : Int
  maxActionPoints : Int

/-- Modelled from the spec: `Character::setActionPoints` (body not under
src/; Character.hpp documents it as "Sets action points, clamping to
maximum").  Values above `getMaxActionPoints()` are clamped down. -/
def setActionPoints (c : CharacterAP) (ap : Int) : CharacterAP :=
  if ap > c.maxActionPoints then { c with actionPoints := c.maxActionPoints }
  else { c with actionPoints := ap }

/-- Modelled from the spec: `Character::increaseActionPoints` (body not
under src/; Character.hpp documents it as "Increases action points by
amount (can be negative)"), routing the new value through the clamping
setter. -/
def increaseActionPoints (c : CharacterAP) (ap : Int) : CharacterAP :=
  setActionPoints c (c.actionPoints + ap)

/-- `Character::getActionPoints` returns the `actionPoints` member. -/
def getActionPoints (c : CharacterAP) : Int := c.actionPoints

/-- **C10.** A character's action points never exceed its maximum: after
`setActionPoints(ap)` for any integer `ap`, `getActionPoints()` is at most
`getMaxActionPoints()`, and the bound is preserved by
`increaseActionPoints` for any (possibly negative) increment. -/
theorem action_points_le_max :
    ∀ (c : CharacterAP) (ap : Int),
      getActionPoints (setActionPoints c ap) ≤ (setActionPoints c ap).maxActionPoints ∧
      getActionPoints (increaseActionPoints c ap) ≤ (increaseActionPoints c ap).maxActionPoints := by
  intro c ap
  constructor
  · unfold getActionPoints setActionPoints
    split
    · simp
    · simp
      omega
  · unfold increaseActionPoints getActionPoints setActionPoints
    split
    · simp
    · simp
      omega

/-! ## Scheduler (Scheduler.hpp) -/

/-- A scheduled task, `Task<clock_type>` from Scheduler.hpp: a
next-execution time point and repeat interval (nanosecond counts), the
diagnostic name, and — standing in for the opaque callable — a flag saying
whether invoking the callable throws. -/
structure SchedTask where
  next : Nat
  interval : Nat
  name : String
  throwsOnRun : Bool
deriving DecidableEq, Repr

/-- Embedded from Scheduler.hpp line 53, `Task::operator<`:
`this < other` holds iff `other._next < _next`, i.e. the comparison
inverts the natural time order, so the `std::priority_queue` max-heap
surfaces the task with the soonest deadline. -/
def taskLess (a b : SchedTask) : Bool := b.next < a.next

/-- Modelled from the spec: the scheduler's priority queue
(`ClockBasedScheduler::_tasks`), shallowly embedded as a list whose head
plays the role of the heap's top: the maximal task under `taskLess`, i.e.
the one with the earliest `next`.  `schedInsert` is the queue's push. -/
def schedInsert (t : SchedTask) : List SchedTask → List SchedTask
  | [] => [t]
  | h :: r => if taskLess h t then t :: h :: r else h :: schedInsert t r

/-- The queue ordering invariant maintained by `schedInsert`: deadlines
are nondecreasing from the head. -/
def schedSorted (q : List SchedTask) : Prop :=
  q.Pairwise (fun a b => a.next ≤ b.next)

/-- Membership in the queue after a push: the new task plus the old
contents. -/
theorem mem_schedInsert {x t : SchedTask} {q : List SchedTask} :
    x ∈ schedInsert t q ↔ x = t ∨ x ∈ q := by
  induction q with
  | nil => simp [schedInsert]
  | cons h r ih =>
      simp only [schedInsert]
      split
      · simp [or_comm, or_assoc, or_left_comm]
      · simp only [List.mem_cons, ih]
        tauto

theorem schedInsert_sorted (t : SchedTask) (q : List SchedTask)
    (hq : schedSorted q) : schedSorted (schedInsert t q) := by
  induction q with
  | nil => simp [schedInsert, schedSorted]
  | cons h r ih =>
      simp only [schedSorted, List.pairwise_cons] at hq
      obtain ⟨hall, hr⟩ := hq
      rw [schedInsert]
      by_cases hc : taskLess h t = true
      · rw [if_pos hc]
        rw [taskLess, decide_eq_true_eq] at hc
        simp only [schedSorted, List.pairwise_cons]
        refine ⟨?_, hall, hr⟩
        intro x hx
        rcases List.mem_cons.mp hx with hxh | hxr
        · subst hxh
          omega
        · have := hall x hxr
          omega
      · rw [if_neg hc]
        rw [taskLess, decide_eq_true_eq] at hc
        simp only [schedSorted, List.pairwise_cons]
        refine ⟨?_, ih hr⟩
        intro x hx
        rcases mem_schedInsert.mp hx with hxt | hxq
        · subst hxt
          omega
        · exact hall x hxq

/-- Modelled from the spec: `Task::run` (body in the missing
Scheduler.tcc).  Running a task at time `now` moves its next-execution
time to `now + interval` — the time of this firing plus the interval, not
the previously scheduled time plus the interval — and reports whether the
task stays in the queue: true exactly when the interval is positive. -/
def taskRun (now : Nat) (t : SchedTask) : SchedTask × Bool :=
  ({ t with next := now + t.interval }, decide (0 < t.interval))

/-- Modelled from the spec: invoking a task's callable, which may throw;
the thrown payload carries the task's name for the log. -/
def runCallable (t : SchedTask) : Except String Unit :=
  if t.throwsOnRun then Except.error t.name else Except.ok ()

/-- Modelled from the spec: `ClockBasedScheduler::execute_tasks` (body in
the missing Scheduler.tcc).  While the queue's top task is due
(`next ≤ now`) it is popped and its callable invoked; a throw is caught at
the call site and logged with the task's name (the function is total — no
exception propagates out); the task is then re-inserted with
`next = now + interval` if recurring, or dropped if one-shot.  Returns the
executed tasks in execution order, the log of caught failures, and the
final queue. -/
def execute_tasks (now : Nat) : List SchedTask → List SchedTask × List String × List SchedTask
  | [] => ([], [], [])
  | h :: r =>
      if h.next ≤ now then
        let log := match runCallable h with
          | Except.error e => [e]
          | Except.ok _ => []
        let res := execute_tasks now r
        let s := taskRun now h
        (h :: res.1, log ++ res.2.1, if s.2 then schedInsert s.1 res.2.2 else res.2.2)
      else ([], [], h :: r)

/-- On a sorted queue, one call to `execute_tasks` executes exactly the
tasks that are due, in queue order. -/
theorem execute_tasks_fires_due (now : Nat) (q : List SchedTask)
    (hs : schedSorted q) :
    (execute_tasks now q).1 = q.filter (fun t => t.next ≤ now) := by
  induction q with
  | nil => simp [execute_tasks]
  | cons h r ih =>
      rw [schedSorted, List.pairwise_cons] at hs
      obtain ⟨hall, hr⟩ := hs
      by_cases hdue : h.next ≤ now
      · simp only [execute_tasks, if_pos hdue, List.filter_cons]
        rw [ih hr]
        simp [hdue]
      · simp only [execute_tasks, if_neg hdue, List.filter_cons]
        have : ∀ x ∈ r, ¬(x.next ≤ now) := by
          intro x hx
          have := hall x hx
          omega
        rw [List.filter_eq_nil_iff.mpr (by simpa using this)]
        simp [hdue]

/-- Modelled from the spec: `ClockBasedScheduler::getNextTaskTime` — the
duration until the earliest pending task (zero if it is overdue), or
`none` standing for the "large value" returned when no tasks are
scheduled. -/
def getNextTaskTime (now : Nat) : List SchedTask → Option Nat
  | [] => none
  | h :: _ => some (h.next - now)

/-- Modelled from the spec: the wait duration computed by run_once —
`min(time_until_earliest_task, maxTimeout)`, or `maxTimeout` when the
queue is empty. -/
def waitDuration (now maxTimeout : Nat) (q : List SchedTask) : Nat :=
  match getNextTaskTime now q with
  | none => maxTimeout
  | some d => min d maxTimeout

/-- Modelled from the spec: `ClockBasedScheduler::run_once`.  The
scheduler sleeps for the computed wait duration on its condition variable,
woken early if `signalNewPlayerAction` arrives (`sig` is the delay until
that signal, `none` if it never comes); waking — for whatever reason —
only re-checks the queue: exactly the tasks due at the wakeup time are
executed, via `execute_tasks`.  Returns the wakeup time together with the
result of `execute_tasks` at that time. -/
def run_once (now maxTimeout : Nat) (sig : Option Nat) (q : List SchedTask) :
    Nat × List SchedTask × List String × List SchedTask :=
  let w := waitDuration now maxTimeout q
  let actual := match sig with
    | none => w
    | some s => min s w
  let wake := now + actual
  (wake, execute_tasks wake q)

/-- **C2.** The scheduler always fires the task with the earliest
next-execution time first: for tasks A due at a later time and B due at an
earlier time, added to the queue in either order, `run_once` executes B
strictly before A; and `Task::operator<` inverts the natural time order
(A, due later, compares as "less" than B), so the max-heap surfaces the
soonest deadline at the top. -/
theorem scheduler_fires_earliest_first (a b : SchedTask) (now maxT : Nat)
    (hab : b.next < a.next) (hdue : a.next ≤ now) :
    (run_once now maxT none (schedInsert a (schedInsert b []))).2.1 = [b, a] ∧
    (run_once now maxT none (schedInsert b (schedInsert a []))).2.1 = [b, a] ∧
    taskLess a b = true := by
  have hb : b.next ≤ now := by omega
  have hnab : ¬(a.next < b.next) := by omega
  have hq1 : schedInsert a (schedInsert b []) = [b, a] := by
    simp [schedInsert, taskLess, hnab]
  have hq2 : schedInsert b (schedInsert a []) = [b, a] := by
    simp [schedInsert, taskLess, hab]
  have hwake : now + waitDuration now maxT [b, a] = now := by
    simp [waitDuration, getNextTaskTime, Nat.sub_eq_zero_of_le hb]
  have hexec : (execute_tasks now [b, a]).1 = [b, a] := by
    simp [execute_tasks, hb, hdue]
  refine ⟨?_, ?_, ?_⟩
  · rw [run_once, hq1]
    simpa [hwake] using hexec
  · rw [run_once, hq2]
    simpa [hwake] using hexec
  · simp [taskLess, hab]

/-- Witness for C2 at A due at 10 ms, B due at 5 ms, drained at time
10 ms. -/
theorem scheduler_fires_earliest_first_witness :
    (run_once 10 50 none
        (schedInsert ⟨10, 0, "A", false⟩ (schedInsert ⟨5, 0, "B", false⟩ []))).2.1 =
      [⟨5, 0, "B", false⟩, ⟨10, 0, "A", false⟩] ∧
    (run_once 10 50 none
        (schedInsert ⟨5, 0, "B", false⟩ (schedInsert ⟨10, 0, "A", false⟩ []))).2.1 =
      [⟨5, 0, "B", false⟩, ⟨10, 0, "A", false⟩] ∧
    taskLess ⟨10, 0, "A", false⟩ ⟨5, 0, "B", false⟩ = true :=
  scheduler_fires_earliest_first ⟨10, 0, "A", false⟩ ⟨5, 0, "B", false⟩ 10 50
    (by decide) (by decide)

/-- **C3.** A popped-and-executed task with positive interval is
re-inserted with next-execution time equal to the time of this firing plus
the interval — not the previously scheduled time plus the interval, so a
late firing causes no catch-up runs — while a task with zero interval is
discarded after firing. -/
theorem recurring_task_reschedules_from_firing (t : SchedTask) (now : Nat)
    (hdue : t.next ≤ now) :
    (taskRun now t).1.next = now + t.interval ∧
    ((taskRun now t).2 = true ↔ 0 < t.interval) ∧
    (t.next ≠ now → (taskRun now t).1.next ≠ t.next + t.interval) ∧
    (0 < t.interval → (execute_tasks now [t]).2.2 = [(taskRun now t).1]) ∧
    (t.interval = 0 → (execute_tasks now [t]).2.2 = []) := by
  refine ⟨rfl, by simp [taskRun], ?_, ?_, ?_⟩
  · intro hne
    simp only [taskRun]
    omega
  · intro hpos
    simp [execute_tasks, hdue, taskRun, hpos, schedInsert]
  · intro hzero
    simp [execute_tasks, hdue, taskRun, hzero]

/-- Witness for C3: a recurring task with interval 100 scheduled for
t = 100 that actually fires late, at t = 150, is rescheduled for t = 250 —
firing time plus interval, not the previously scheduled 100 + 100. -/
theorem recurring_task_reschedules_from_firing_witness :
    (taskRun 150 ⟨100, 100, "tick", false⟩).1.next = 150 + 100 ∧
    ((taskRun 150 ⟨100, 100, "tick", false⟩).2 = true ↔ (0 : Nat) < 100) ∧
    ((100 : Nat) ≠ 150 → (taskRun 150 ⟨100, 100, "tick", false⟩).1.next ≠ 100 + 100) ∧
    ((0 : Nat) < 100 → (execute_tasks 150 [⟨100, 100, "tick", false⟩]).2.2 =
      [(taskRun 150 ⟨100, 100, "tick", false⟩).1]) ∧
    ((100 : Nat) = 0 → (execute_tasks 150 [⟨100, 100, "tick", false⟩]).2.2 = []) :=
  recurring_task_reschedules_from_firing ⟨100, 100, "tick", false⟩ 150 (by decide)

/-- **C6.** `run_once(maxTimeout)` waits for
`min(time_until_earliest_pending_task, maxTimeout)` — for `maxTimeout`
when the queue is empty — wakes early when `signalNewPlayerAction` is
signalled, and then executes exactly the pending tasks whose
next-execution time is at most the wakeup time; a wakeup never executes a
task that is not yet due. -/
theorem run_once_waits_min_and_fires_due (now maxT : Nat) (sig : Option Nat)
    (q : List SchedTask) (hs : schedSorted q) :
    (q = [] → waitDuration now maxT q = maxT) ∧
    (∀ h r, q = h :: r → waitDuration now maxT q = min (h.next - now) maxT) ∧
    (∀ s, sig = some s →
      (run_once now maxT sig q).1 = now + min s (waitDuration now maxT q)) ∧
    (run_once now maxT sig q).2.1 =
      q.filter (fun t => t.next ≤ (run_once now maxT sig q).1) ∧
    (∀ t ∈ q, ¬(t.next ≤ (run_once now maxT sig q).1) →
      t ∉ (run_once now maxT sig q).2.1) := by
  have hfire : ∀ wake : Nat, (execute_tasks wake q).1 =
      q.filter (fun t => t.next ≤ wake) := fun wake =>
    execute_tasks_fires_due wake q hs
  refine ⟨?_, ?_, ?_, ?_, ?_⟩
  · intro he
    subst he
    rfl
  · intro h r he
    subst he
    rfl
  · intro s he
    subst he
    rfl
  · exact hfire _
  · intro t ht hnot hmem
    have heq : (run_once now maxT sig q).2.1 =
        (execute_tasks (run_once now maxT sig q).1 q).1 := rfl
    rw [heq, hfire _] at hmem
    exact hnot (by simpa using (List.mem_filter.mp hmem).2)

/-- Witness for C6: queue with tasks due at 5 and 10, `maxTimeout = 7`,
urgent signal after 3 — the scheduler wakes at time 3 and executes no
task, since none is due. -/
theorem run_once_waits_min_and_fires_due_witness :
    (([⟨5, 0, "A", false⟩, ⟨10, 0, "B", false⟩] : List SchedTask) = [] →
      waitDuration 0 7 [⟨5, 0, "A", false⟩, ⟨10, 0, "B", false⟩] = 7) ∧
    (∀ h r, ([⟨5, 0, "A", false⟩, ⟨10, 0, "B", false⟩] : List SchedTask) = h :: r →
      waitDuration 0 7 [⟨5, 0, "A", false⟩, ⟨10, 0, "B", false⟩] =
        min (h.next - 0) 7) ∧
    (∀ s, (some 3 : Option Nat) = some s →
      (run_once 0 7 (some 3) [⟨5, 0, "A", false⟩, ⟨10, 0, "B", false⟩]).1 =
        0 + min s (waitDuration 0 7 [⟨5, 0, "A", false⟩, ⟨10, 0, "B", false⟩])) ∧
    (run_once 0 7 (some 3) [⟨5, 0, "A", false⟩, ⟨10, 0, "B", false⟩]).2.1 =
      ([⟨5, 0, "A", false⟩, ⟨10, 0, "B", false⟩] : List SchedTask).filter
        (fun t => t.next ≤ (run_once 0 7 (some 3)
          [⟨5, 0, "A", false⟩, ⟨10, 0, "B", false⟩]).1) ∧
    (∀ t ∈ ([⟨5, 0, "A", false⟩, ⟨10, 0, "B", false⟩] : List SchedTask),
      ¬(t.next ≤ (run_once 0 7 (some 3)
          [⟨5, 0, "A", false⟩, ⟨10, 0, "B", false⟩]).1) →
      t ∉ (run_once 0 7 (some 3) [⟨5, 0, "A", false⟩, ⟨10, 0, "B", false⟩]).2.1) :=
  run_once_waits_min_and_fires_due 0 7 (some 3)
    [⟨5, 0, "A", false⟩, ⟨10, 0, "B", false⟩]
    (by simp [schedSorted])

/-- **C7.** A task whose callable throws inside run_once's task execution
is caught at the call site and logged with the task's name; the remaining
due tasks are still executed (the executed list is still exactly the due
tasks), the throwing task is still rescheduled if recurring and dropped if
one-shot, and the scheduler itself never propagates the exception
(`execute_tasks` is total and always returns a result). -/
theorem task_failure_contained (now : Nat) (h : SchedTask) (r : List SchedTask)
    (hs : schedSorted (h :: r)) (hdue : h.next ≤ now)
    (hthrow : h.throwsOnRun = true) :
    (execute_tasks now (h :: r)).1 = (h :: r).filter (fun t => t.next ≤ now) ∧
    (execute_tasks now (h :: r)).2.1 = h.name :: (execute_tasks now r).2.1 ∧
    (0 < h.interval → (taskRun now h).1 ∈ (execute_tasks now (h :: r)).2.2) ∧
    (h.interval = 0 → (execute_tasks now (h :: r)).2.2 =
      (execute_tasks now r).2.2) := by
  refine ⟨execute_tasks_fires_due now (h :: r) hs, ?_, ?_, ?_⟩
  · simp [execute_tasks, hdue, runCallable, hthrow]
  · intro hpos
    simp only [execute_tasks, if_pos hdue, taskRun, decide_eq_true_eq]
    rw [if_pos hpos]
    exact mem_schedInsert.mpr (Or.inl rfl)
  · intro hzero
    simp [execute_tasks, hdue, taskRun, hzero]

/-- Witness for C7: a due recurring task that throws, followed by a due
healthy one-shot task — both execute, the failure is logged under the
thrower's name, and the thrower is rescheduled. -/
theorem task_failure_contained_witness :
    (execute_tasks 0 [⟨0, 5, "boom", true⟩, ⟨0, 0, "ok", false⟩]).1 =
      ([⟨0, 5, "boom", true⟩, ⟨0, 0, "ok", false⟩] : List SchedTask).filter
        (fun t => t.next ≤ 0) ∧
    (execute_tasks 0 [⟨0, 5, "boom", true⟩, ⟨0, 0, "ok", false⟩]).2.1 =
      "boom" :: (execute_tasks 0 [⟨0, 0, "ok", false⟩]).2.1 ∧
    ((0 : Nat) < 5 → (taskRun 0 ⟨0, 5, "boom", true⟩).1 ∈
      (execute_tasks 0 [⟨0, 5, "boom", true⟩, ⟨0, 0, "ok", false⟩]).2.2) ∧
    ((5 : Nat) = 0 → (execute_tasks 0 [⟨0, 5, "boom", true⟩, ⟨0, 0, "ok", false⟩]).2.2 =
      (execute_tasks 0 [⟨0, 0, "ok", false⟩]).2.2) :=
  task_failure_contained 0 ⟨0, 5, "boom", true⟩ [⟨0, 0, "ok", false⟩]
    (by simp [schedSorted]) (by decide) (by decide)

/-! ## Player command queues (Player.hpp, BasicClientCommand.hpp) -/

/-- A client command as seen by the drain: `BasicClientCommand`'s
minimum-AP requirement together with an identifier used to track the order
in which commands execute. -/
structure ClientCommand where
  id : Nat
  minAP : Nat
deriving DecidableEq, Repr

/-- Embedded from BasicClientCommand.hpp line 162: `getMinAP` returns the
`minAP` member (a `uint16_t`). -/
def getMinAP (c : ClientCommand) : Nat := c.minAP

/-- The player state the drain touches: current action points and the two
command lanes of Player.hpp lines 187-190 (`immediateCommands` the
high-priority lane, `queuedCommands` the normal lane). -/
structure PlayerQ where
  actionPoints : Int
  immediateCommands : List ClientCommand
  queuedCommands : List ClientCommand
deriving DecidableEq, Repr

/-- Modelled from the spec: routing a received command into its lane
(`Player::receiveCommand`; body not under src/) — an immediate command is
appended to the high-priority lane, any other to the normal lane, FIFO. -/
def receiveCommand (p : PlayerQ) (c : ClientCommand) (imm : Bool) : PlayerQ :=
  if imm then { p with immediateCommands := p.immediateCommands ++ [c] }
  else { p with queuedCommands := p.queuedCommands ++ [c] }

/-- Modelled from the spec: draining one command lane in FIFO order.  Each
command is popped; if the entity's action points cover its minimum-AP
requirement it is executed (its id appended to the execution order) and
its AP cost deducted, otherwise it is discarded — never re-queued — and
the drain continues with the next command.  Returns the remaining AP and
the ids of the executed commands in execution order. -/
def drainLane (ap : Int) : List ClientCommand → Int × List Nat
  | [] => (ap, [])
  | c :: rest =>
      if (getMinAP c : Int) ≤ ap then
        let res := drainLane (ap - getMinAP c) rest
        (res.1, c.id :: res.2)
      else drainLane ap rest

/-- Modelled from the spec: `Player::workoutCommands` (body not under
src/) — within the player's tick slice the immediate lane is drained
fully, then the normal lane; both lanes are left empty. -/
def workoutCommands (p : PlayerQ) : PlayerQ × List Nat :=
  let ri := drainLane p.actionPoints p.immediateCommands
  let rn := drainLane ri.1 p.queuedCommands
  ({ actionPoints := rn.1, immediateCommands := [], queuedCommands := [] },
   ri.2 ++ rn.2)

/-- Executed commands of a lane are a subsequence of the lane: commands
execute in FIFO (arrival) order and a discarded command never blocks the
rest. -/
theorem drainLane_fifo (ap : Int) (lane : List ClientCommand) :
    List.Sublist (drainLane ap lane).2 (lane.map ClientCommand.id) := by
  induction lane generalizing ap with
  | nil => simp [drainLane]
  | cons c rest ih =>
      rw [drainLane]
      by_cases hc : (getMinAP c : Int) ≤ ap
      · rw [if_pos hc]
        simpa using List.Sublist.cons₂ c.id (ih (ap - getMinAP c))
      · rw [if_neg hc]
        simpa using List.Sublist.cons c.id (ih ap)

/-- **C4.** Within one player's tick slice the immediate lane is fully
drained before any normal-lane command is serviced, and commands within
each lane execute in FIFO order: for one immediate-lane and one
normal-lane command received in either order, a tick with enough AP for
both executes the immediate command first. -/
theorem immediate_lane_first (ap : Int) (i n : ClientCommand)
    (h : (getMinAP i : Int) + getMinAP n ≤ ap) :
    (workoutCommands (receiveCommand (receiveCommand ⟨ap, [], []⟩ i true) n false)).2 =
      [i.id, n.id] ∧
    (workoutCommands (receiveCommand (receiveCommand ⟨ap, [], []⟩ n false) i true)).2 =
      [i.id, n.id] ∧
    (∀ (ap2 : Int) (lane : List ClientCommand),
      List.Sublist (drainLane ap2 lane).2 (lane.map ClientCommand.id)) := by
  have hi : (getMinAP i : Int) ≤ ap := by
    have : (0 : Int) ≤ getMinAP n := Int.natCast_nonneg _
    omega
  have hn : (getMinAP n : Int) ≤ ap - getMinAP i := by omega
  have hdrain : (workoutCommands ⟨ap, [i], [n]⟩).2 = [i.id, n.id] := by
    simp [workoutCommands, drainLane, hi, hn]
  refine ⟨?_, ?_, fun ap2 lane => drainLane_fifo ap2 lane⟩
  · have : receiveCommand (receiveCommand ⟨ap, [], []⟩ i true) n false =
        ⟨ap, [i], [n]⟩ := by
      simp [receiveCommand]
    rw [this, hdrain]
  · have : receiveCommand (receiveCommand ⟨ap, [], []⟩ n false) i true =
        ⟨ap, [i], [n]⟩ := by
      simp [receiveCommand]
    rw [this, hdrain]

/-- Witness for C4: AP 10, immediate command costing 3, normal command
costing 4 — the immediate command executes first in both arrival
orders. -/
theorem immediate_lane_first_witness :
    (workoutCommands (receiveCommand (receiveCommand ⟨10, [], []⟩ ⟨1, 3⟩ true) ⟨2, 4⟩ false)).2 =
      [1, 2] ∧
    (workoutCommands (receiveCommand (receiveCommand ⟨10, [], []⟩ ⟨2, 4⟩ false) ⟨1, 3⟩ true)).2 =
      [1, 2] :=
  ⟨(immediate_lane_first 10 ⟨1, 3⟩ ⟨2, 4⟩ (by decide)).1,
   (immediate_lane_first 10 ⟨1, 3⟩ ⟨2, 4⟩ (by decide)).2.1⟩

/-- **C5.** During a drain, a queued command whose minimum-AP requirement
exceeds the current action points is discarded — the drain result is as if
it had never been queued, so it is not re-queued, never retried (both
lanes are empty after `workoutCommands`), and it does not prevent
subsequent commands in the same lane from being attempted — while a
command whose requirement is met is executed and its AP cost deducted. -/
theorem stale_command_discarded (ap : Int) (c : ClientCommand)
    (rest : List ClientCommand) (h : ap < getMinAP c) :
    drainLane ap (c :: rest) = drainLane ap rest ∧
    (∀ p : PlayerQ, (workoutCommands p).1.immediateCommands = [] ∧
      (workoutCommands p).1.queuedCommands = []) ∧
    (∀ (ap2 : Int) (c2 : ClientCommand) (r2 : List ClientCommand),
      (getMinAP c2 : Int) ≤ ap2 →
      drainLane ap2 (c2 :: r2) =
        ((drainLane (ap2 - getMinAP c2) r2).1,
         c2.id :: (drainLane (ap2 - getMinAP c2) r2).2)) := by
  refine ⟨?_, ?_, ?_⟩
  · rw [drainLane, if_neg (by omega)]
  · intro p
    exact ⟨rfl, rfl⟩
  · intro ap2 c2 r2 h2
    rw [drainLane, if_pos h2]

/-- Witness for C5: with 2 AP, a command costing 5 is discarded and the
following command costing 1 still executes. -/
theorem stale_command_discarded_witness :
    drainLane 2 [⟨7, 5⟩, ⟨8, 1⟩] = drainLane 2 [⟨8, 1⟩] ∧
    (∀ p : PlayerQ, (workoutCommands p).1.immediateCommands = [] ∧
      (workoutCommands p).1.queuedCommands = []) ∧
    (∀ (ap2 : Int) (c2 : ClientCommand) (r2 : List ClientCommand),
      (getMinAP c2 : Int) ≤ ap2 →
      drainLane ap2 (c2 :: r2) =
        ((drainLane (ap2 - getMinAP c2) r2).1,
         c2.id :: (drainLane (ap2 - getMinAP c2) r2).2)) :=
  stale_command_discarded 2 ⟨7, 5⟩ [⟨8, 1⟩] (by decide)

/-! ## World tick ordering (World.hpp) -/

/-- The phases of one world tick: the three entity categories processed by
`World::turntheworld`. -/
inductive TickPhase
  | players
  | monsters
  | npcs
deriving DecidableEq, Repr

/-- World's AP bookkeeping (World.hpp lines 233-236): `usedAP` is the
cumulative AP consumed since server start; `ap` is the AP available to the
current game-loop iteration. -/
structure WorldAP where
  usedAP : Nat
  ap : Int
deriving DecidableEq, Repr

/-- The AP newly accrued at this invocation: total elapsed milliseconds
converted at the fixed rate, minus the AP already consumed. -/
def accruedAP (msPerAP : Nat) (w : WorldAP) (elapsedMs : Nat) : Int :=
  ((elapsedMs / msPerAP : Nat) : Int) - w.usedAP

/-- Modelled from the spec: `World::turntheworld` (body not under src/;
World.hpp documents: calculates elapsed milliseconds, converts them to AP,
and if at least 1 AP has accumulated calls `checkPlayers()`,
`checkMonsters()` and `checkNPC()` in sequence, updating the `usedAP`
counter).  Returns the new bookkeeping state and the ordered list of
entity-category phases run during this invocation. -/
def turntheworld (msPerAP : Nat) (w : WorldAP) (elapsedMs : Nat) :
    WorldAP × List TickPhase :=
  let newAP := accruedAP msPerAP w elapsedMs
  if 0 < newAP then
    ({ usedAP := w.usedAP + newAP.toNat, ap := newAP },
     [TickPhase.players, TickPhase.monsters, TickPhase.npcs])
  else ({ w with ap := newAP }, [])

/-- **C8.** In every invocation of `World::turntheworld` in which at least
1 AP has accrued, the three entity categories run in the fixed order
players, then monsters, then NPCs; and in no invocation does
`checkMonsters` or `checkNPC` run before `checkPlayers`: the phase list is
always either empty or exactly players-monsters-NPCs. -/
theorem tick_order_players_monsters_npcs (msPerAP : Nat) (w : WorldAP)
    (elapsedMs : Nat) :
    ((turntheworld msPerAP w elapsedMs).2 = [] ∨
     (turntheworld msPerAP w elapsedMs).2 =
       [TickPhase.players, TickPhase.monsters, TickPhase.npcs]) ∧
    (1 ≤ accruedAP msPerAP w elapsedMs →
      (turntheworld msPerAP w elapsedMs).2 =
        [TickPhase.players, TickPhase.monsters, TickPhase.npcs]) ∧
    (accruedAP msPerAP w elapsedMs ≤ 0 →
      (turntheworld msPerAP w elapsedMs).2 = []) := by
  unfold turntheworld
  by_cases hap : 0 < accruedAP msPerAP w elapsedMs
  · rw [if_pos hap]
    exact ⟨Or.inr rfl, fun _ => rfl, fun hle => absurd hap (by omega)⟩
  · rw [if_neg hap]
    exact ⟨Or.inl rfl, fun hge => absurd hge (by omega), fun _ => rfl⟩

/-- Witness for C8: rate 10 ms/AP, 25 ms elapsed, nothing consumed yet —
2 AP accrue and the tick runs players, monsters, NPCs in order. -/
theorem tick_order_players_monsters_npcs_witness :
    (((turntheworld 10 ⟨0, 0⟩ 25).2 = [] ∨
      (turntheworld 10 ⟨0, 0⟩ 25).2 =
        [TickPhase.players, TickPhase.monsters, TickPhase.npcs]) ∧
     (1 ≤ accruedAP 10 ⟨0, 0⟩ 25 →
       (turntheworld 10 ⟨0, 0⟩ 25).2 =
         [TickPhase.players, TickPhase.monsters, TickPhase.npcs]) ∧
     (accruedAP 10 ⟨0, 0⟩ 25 ≤ 0 →
       (turntheworld 10 ⟨0, 0⟩ 25).2 = [])) :=
  tick_order_players_monsters_npcs 10 ⟨0, 0⟩ 25

end Illarion
